import Mathlib

/-!
# Verification of the db-migrator core

A shallow embedding, in Lean 4, of the core components of the `db-migrator`
repository (Go), together with proofs of the behavioural properties stated in
its specification:

* `internal/sqlparser` — the SQL statement model, the dependency resolver
  `SortByDependencies` (Kahn's algorithm followed by a type-priority re-sort),
  and the statement-splitting loop of `Parser.ParseFile`;
* `internal/migrator` — the migration runner (`Migrator.Up`, `Migrator.Down`,
  `acquireLock`, `releaseLock`, `executeMigration`, `TxWrapper`) as a state
  machine over an explicit database state (ledger rows, lock flag);
* `internal/database` — the batch inserter (`executeBatchInsertDB` batching,
  `ValidateTablesExist`, the result summary of `InsertFromSQLFile`).

Go maps are embedded as association structures with a fixed iteration order
(first occurrence); the claims proved below do not depend on Go's
nondeterministic map iteration order.  Machine integers are embedded as
`Int`/`Nat` (no value in scope approaches overflow).  Database round trips
that can only fail through driver errors are modelled as total (the
environment succeeds); failures of the migration actions themselves are part
of the model.
-/

namespace DbMigrator

/-- Lexicographic order on character lists; used to embed Go's built-in
string comparison (byte-wise; identical to code-point-wise on the ASCII
identifiers in scope). -/
def charListLt : List Char → List Char → Bool
  | [], [] => false
  | [], _ :: _ => true
  | _ :: _, [] => false
  | a :: as, b :: bs => if a = b then charListLt as bs else decide (a.toNat < b.toNat)

/-- Go's `<` on strings. -/
def goStrLt (a b : String) : Bool :=
  charListLt a.toList b.toList

namespace sqlparser

/-- Embeds `types.SQLStatement` (the parsed-statement record).  The Go field
`Type` is spelled `typ` here because `Type` is reserved in Lean. -/
structure SQLStatement where
  typ : String
  Name : String
  Statement : String
  Dependencies : List String
deriving DecidableEq, Repr, Inhabited

/-- Distinct keys of a Go map in first-insertion order; `seen` accumulates the
keys already produced. -/
def dedupFirst (seen : List String) : List String → List String
  | [] => []
  | k :: ks => if k ∈ seen then dedupFirst seen ks else k :: dedupFirst (k :: seen) ks

/-- The lookup `_, exists := stmtMap[dep]`: is `d` the name of some statement of the batch? -/
def present (stmts : List SQLStatement) (d : String) : Bool :=
  stmts.any (fun s => s.Name == d)

/-- The dependency edges built by `SortByDependencies`: one edge
`(dep, stmt.Name)` for every dependency of every statement that names another
statement of the same batch, in statement order. -/
def edges (stmts : List SQLStatement) : List (String × String) :=
  stmts.flatMap (fun s => (s.Dependencies.filter (present stmts)).map (fun d => (d, s.Name)))

/-- The adjacency list `graph[u]` built from the edge list. -/
def graphOf (E : List (String × String)) (u : String) : List String :=
  (E.filter (fun e => e.1 == u)).map (fun e => e.2)

/-- The inner loop of Kahn's algorithm: decrement the in-degree of every
neighbour of the node just emitted, enqueueing a neighbour when its in-degree
reaches zero, exactly as the Go `for _, neighbor := range graph[current]`. -/
def processNeighbors : List String → (String → Int) → List String → (String → Int) × List String
  | [], deg, queue => (deg, queue)
  | n :: rest, deg, queue =>
    let d := deg n - 1
    processNeighbors rest (fun x => if x = n then d else deg x)
      (if d = 0 then queue ++ [n] else queue)

/-- The outer loop of Kahn's algorithm: pop the queue head, emit it, process
its neighbours.  The loop runs at most once per enqueued name; `fuel` is set
by the caller above every reachable iteration count, so the `0` branch is
never taken from the initial state. -/
def kahnLoop (g : String → List String) : Nat → List String → (String → Int) → List String → List String
  | 0, _, _, emitted => emitted
  | _ + 1, [], _, emitted => emitted
  | fuel + 1, q :: rest, deg, emitted =>
    let p := processNeighbors (g q) deg rest
    kahnLoop g fuel p.2 p.1 (emitted ++ [q])

/-- The fixed kind-priority table (`typeOrder`); a missing key yields the Go
zero value `0`. -/
def typeOrder (t : String) : Nat :=
  if t = "CREATE_TABLE" then 1
  else if t = "CREATE_VIEW" then 2
  else if t = "CREATE_PROCEDURE" then 3
  else if t = "CREATE_FUNCTION" then 3
  else if t = "CREATE_TRIGGER" then 4
  else if t = "CREATE_INDEX" then 5
  else if t = "CREATE_OTHER" then 6
  else 0

/-- The `sort.Slice` comparator: kind priority first, then name. -/
def stmtLess (a b : SQLStatement) : Bool :=
  if typeOrder a.typ = typeOrder b.typ then goStrLt a.Name b.Name
  else decide (typeOrder a.typ < typeOrder b.typ)

/-- Insertion of one statement into a list sorted by `stmtLess`. -/
def insertSorted (a : SQLStatement) : List SQLStatement → List SQLStatement
  | [] => [a]
  | b :: bs => if stmtLess b a then b :: insertSorted a bs else a :: b :: bs

/-- The final re-sort of `SortByDependencies` by `(typeOrder, Name)`.  The Go
comparator is a strict total order on statements with pairwise distinct names,
so the sorted result is the same for every sorting algorithm. -/
def sortStmts : List SQLStatement → List SQLStatement
  | [] => []
  | a :: as => insertSorted a (sortStmts as)

/-- The lookup `stmtMap[n]`: the statement registered under name `n` (the last statement
with that name, as Go map insertion overwrites). -/
def stmtMap (stmts : List SQLStatement) (n : String) : SQLStatement :=
  (stmts.reverse.find? (fun s => s.Name == n)).getD default

/-- Embeds `Parser.SortByDependencies` (part_011, lines 383–456): Kahn's
topological sort over the in-batch dependency graph, hard failure when the
emitted count falls short of the statement count, then the type-priority
re-sort of the emitted statements. -/
def SortByDependencies (stmts : List SQLStatement) : Except String (List SQLStatement) :=
  let ks := dedupFirst [] (stmts.map (fun s => s.Name))
  let E := edges stmts
  let deg : String → Int := fun v => ((E.filter (fun e => e.2 == v)).length : Int)
  let queue := ks.filter (fun n => deg n == 0)
  let emitted := kahnLoop (graphOf E) (stmts.length + E.length + 1) queue deg []
  if emitted.length ≠ stmts.length then Except.error "检测到循环依赖"
  else Except.ok (sortStmts (emitted.map (stmtMap stmts)))

/-! ### The statement-splitting loop of `Parser.ParseFile`

Go's string primitives (`TrimSpace`, `HasSuffix`, `ToUpper`, slicing) are
embedded as character-list functions so that all definitions evaluate inside
the kernel.  The byte-indexed Go operations agree with these character-indexed
ones on the ASCII scripts in scope. -/

/-- Is `p` a leading segment of `text`? (Go `strings.HasPrefix`.) -/
def leadMatch : List Char → List Char → Bool
  | [], _ => true
  | _ :: _, [] => false
  | p :: ps, c :: cs => p = c && leadMatch ps cs

/-- Go `strings.TrimSpace`. -/
def goTrim (s : String) : String :=
  String.mk (((s.toList.dropWhile Char.isWhitespace).reverse.dropWhile Char.isWhitespace).reverse)

/-- Go `strings.ToUpper`. -/
def goToUpper (s : String) : String :=
  String.mk (s.toList.map Char.toUpper)

/-- Go `strings.HasSuffix`. -/
def goHasSuffix (s suf : String) : Bool :=
  leadMatch suf.toList.reverse s.toList.reverse

/-- Go `strings.TrimSuffix`: remove one copy of `suf` when present. -/
def goTrimSuffix (s suf : String) : String :=
  if goHasSuffix s suf then String.mk (s.toList.take (s.toList.length - suf.toList.length)) else s

/-- Go `line[n:]` (on the ASCII lines in scope). -/
def strDrop (s : String) (n : Nat) : String :=
  String.mk (s.toList.drop n)

/-- The scan state threaded through `processLine` by pointer in Go:
inside-block-comment flag, inside-string flag and the active quote char. -/
structure ScanState where
  inMultiLineComment : Bool
  inString : Bool
  stringChar : Char
deriving DecidableEq, Repr

/-- Embeds the body of `Parser.processLine`: one pass over the runes of a
line, with lookahead `rest.head?` for `runes[i+1]` and `prev` for
`runes[i-1]`.  The `i++` statements in the Go loop body have no effect on a
`range` loop, so no character is ever skipped; the embedding reproduces
that (e.g. the `/` closing a block comment is emitted). -/
def processLineAux : List Char → Option Char → ScanState → List Char → List Char × ScanState
  | [], _, st, acc => (acc, st)
  | c :: rest, prev, st, acc =>
    if st.inMultiLineComment then
      if c = '*' ∧ rest.head? = some '/' then
        processLineAux rest (some c) { st with inMultiLineComment := false } acc
      else
        processLineAux rest (some c) st acc
    else if st.inString then
      processLineAux rest (some c)
        (if c = st.stringChar ∧ prev ≠ some '\\' then { st with inString := false } else st)
        (acc ++ [c])
    else if c = '\'' ∨ c = '"' ∨ c = '`' then
      processLineAux rest (some c) { st with inString := true, stringChar := c } (acc ++ [c])
    else if c = '-' ∧ rest.head? = some '-' then
      (acc, st)
    else if c = '/' ∧ rest.head? = some '*' then
      processLineAux rest (some c) { st with inMultiLineComment := true } acc
    else
      processLineAux rest (some c) st (acc ++ [c])

/-- Embeds `Parser.processLine`. -/
def processLine (line : String) (st : ScanState) : String × ScanState :=
  let p := processLineAux line.toList none st []
  (goTrim (String.mk p.1), p.2)

/-- Embeds `Parser.isStatementEnd`. -/
def isStatementEnd (delim : String) (line : String) (inStr : Bool) : Bool :=
  if inStr then false else goHasSuffix (goTrim line) delim

/-- The mutable state of the `ParseFile` scan loop: active delimiter (a field
of `Parser`), comment/string scan state, the statement accumulator, the
statements produced so far, and the current line number. -/
structure FileScan where
  delimiter : String
  scan : ScanState
  current : String
  statements : List SQLStatement
  lineNumber : Nat
deriving DecidableEq, Repr

/-- The initial state of a `ParseFile` run (`NewParser` sets `;`). -/
def initFileScan : FileScan :=
  ⟨";", ⟨false, false, ' '⟩, "", [], 0⟩

/-- Embeds the per-line loop of `Parser.ParseFile` (part_011, lines 43–79).
`parseStmt` stands for `Parser.parseStatement`, the statement
classifier/name-extractor applied to each completed statement; the claims
settled here hold for every such classifier, so it is a parameter.  Note the
loop simply returns when the lines run out: a trailing statement never closed
by the delimiter stays in `current` and is discarded without any error. -/
def parseFileLoop (parseStmt : String → Except String (Option SQLStatement)) :
    List String → FileScan → Except String FileScan
  | [], fs => Except.ok fs
  | line :: rest, fs =>
    let fs := { fs with lineNumber := fs.lineNumber + 1 }
    if leadMatch "DELIMITER".toList (goTrim (goToUpper line)).toList then
      parseFileLoop parseStmt rest { fs with delimiter := goTrim (strDrop line 9) }
    else
      let pl := processLine line fs.scan
      let fs := { fs with scan := pl.2 }
      if pl.1 = "" then
        parseFileLoop parseStmt rest fs
      else
        let current := fs.current ++ pl.1 ++ " "
        if isStatementEnd fs.delimiter pl.1 pl.2.inString then
          let statementText := goTrim (goTrimSuffix (goTrim current) fs.delimiter)
          if statementText = "" then
            parseFileLoop parseStmt rest { fs with current := "" }
          else
            match parseStmt statementText with
            | Except.error e =>
                Except.error ("第" ++ toString fs.lineNumber ++ "行解析错误: " ++ e)
            | Except.ok none =>
                parseFileLoop parseStmt rest { fs with current := "" }
            | Except.ok (some stmt) =>
                parseFileLoop parseStmt rest
                  { fs with current := "", statements := fs.statements ++ [stmt] }
        else
          parseFileLoop parseStmt rest { fs with current := current }

/-- Embeds `Parser.ParseFile` on the lines of the file: run the scan loop and
return the collected statements. -/
def ParseFile (parseStmt : String → Except String (Option SQLStatement))
    (lines : List String) : Except String (List SQLStatement) :=
  (parseFileLoop parseStmt lines initFileScan).map (fun fs => fs.statements)

/-- A `parseStatement` stand-in for inputs on which the scan loop never
completes a statement (so it is never invoked); any value would do. -/
def parseStmtUnused : String → Except String (Option SQLStatement) :=
  fun _ => Except.ok none

/-! ### Predicates used to reason about the Kahn loop -/

/-- The number of edges of `E` into `v` whose source has not been emitted:
the value `inDegree[v]` holds throughout the loop. -/
def remInDeg (E : List (String × String)) (em : List String) (v : String) : Nat :=
  E.countP (fun e => e.2 == v && !(em.contains e.1))

/-- Predicate: `emitted` respects the edges of `E`: every edge whose target has been
emitted has its source emitted strictly earlier. -/
def Topo (E : List (String × String)) (emitted : List String) : Prop :=
  ∀ e ∈ E, e.2 ∈ emitted → ∃ l1 l2, emitted = l1 ++ e.2 :: l2 ∧ e.1 ∈ l1

/-- The loop invariant of `kahnLoop`: in-degrees track unemitted sources, no
name is duplicated between the emitted list and the queue, queued names have
in-degree zero, every tracked name is a key, and the emitted list is in
dependency order. -/
def KahnInv (E : List (String × String)) (ks : List String) (queue : List String)
    (deg : String → Int) (emitted : List String) : Prop :=
  (∀ v, deg v = (remInDeg E emitted v : Int))
  ∧ (emitted ++ queue).Nodup
  ∧ (∀ v ∈ queue, deg v = 0)
  ∧ (∀ v, v ∈ emitted ++ queue → v ∈ ks)
  ∧ Topo E emitted

/-- The `orders` statement of the specification's running example. -/
def ordersStmt : SQLStatement :=
  ⟨"CREATE_TABLE", "orders", "CREATE TABLE orders (id INT PRIMARY KEY);", []⟩

/-- The `order_items` statement of the specification's running example: its
foreign key references `orders`, so the parser records that dependency. -/
def orderItemsStmt : SQLStatement :=
  ⟨"CREATE_TABLE", "order_items",
   "CREATE TABLE order_items (id INT PRIMARY KEY, order_id INT, FOREIGN KEY (order_id) REFERENCES orders(id));",
   ["orders"]⟩

/-- The scan state reached on the one-line script `CREATE TABLE a (x INT)`:
the statement is still pending in `current` when the file ends. -/
def fsUnterminated : FileScan :=
  ⟨";", ⟨false, false, ' '⟩, "CREATE TABLE a (x INT) ", [], 1⟩

end sqlparser

namespace migrator

/-- Embeds `types.MigrationRecord`: one ledger row.  `applied_at` timestamps
are drawn from the state's logical clock. -/
structure MigrationRecord where
  Version : String
  Description : String
  AppliedAt : Nat
  Success : Bool
  ErrorMsg : String
deriving DecidableEq, Repr

/-- Embeds a registered `types.Migration`.  The up/down actions run against
the database environment; in the fixed environment of one run each action
either succeeds or fails with a definite error, recorded here as
`upErr`/`downErr` (`none` = the action returns `nil`). -/
structure Migration where
  version : String
  description : String
  upErr : Option String
  downErr : Option String
deriving DecidableEq, Repr

/-- The migrator configuration fields the runner consults. -/
structure MigratorConfig where
  DryRun : Bool
deriving DecidableEq, Repr

/-- Embeds `migrator.Migrator` (registered migrations and config; the ledger
and lock tables live in `DBState`). -/
structure Migrator where
  migrations : List Migration
  config : MigratorConfig
deriving DecidableEq, Repr

/-- The durable database state the runner manipulates: the ledger table, the
single lock row's `locked` flag, a logical clock supplying `NOW()`
timestamps, and a history of the migration actions that were run
(`actionLog` records execution attempts; it is history, not table content,
so a rollback does not erase it). -/
structure DBState where
  ledger : List MigrationRecord
  locked : Bool
  clock : Nat
  actionLog : List (String × Bool)
deriving DecidableEq, Repr

/-- Embeds `Migrator.acquireLock`: the atomic conditional update
`UPDATE ... SET locked=TRUE WHERE id=1 AND locked=FALSE` affects one row
exactly when the lock is free; zero affected rows is the contention error. -/
def acquireLock (st : DBState) : Except String DBState :=
  if st.locked then Except.error "无法获取迁移锁，可能有其他迁移正在进行"
  else Except.ok { st with locked := true }

/-- Embeds `Migrator.releaseLock` (`UPDATE ... SET locked=FALSE WHERE id=1`). -/
def releaseLock (st : DBState) : DBState :=
  { st with locked := false }

/-- Insertion step of `sortMigrations` (sort by version ascending). -/
def insertMigSorted (a : Migration) : List Migration → List Migration
  | [] => [a]
  | b :: bs => if goStrLt b.version a.version then b :: insertMigSorted a bs else a :: b :: bs

/-- Embeds `Migrator.sortMigrations`: sort the registered migrations by
version ascending (`sort.Slice` with `Version() < Version()`). -/
def sortMigrations : List Migration → List Migration
  | [] => []
  | a :: as => insertMigSorted a (sortMigrations as)

/-- The version set of `getAppliedMigrations`:
`SELECT version ... WHERE success = TRUE`. -/
def appliedVersions (led : List MigrationRecord) : List String :=
  (led.filter (fun r => r.Success)).map (fun r => r.Version)

/-- Embeds `Migrator.executeMigration` (multi_migrator.go, lines 484–550):
begin a transaction, run the up/down action, write the success/failure
ledger row (up) or delete the row (down) inside the transaction, then commit
on success — or return the action's error, upon which the deferred
`tx.Rollback()` discards the buffered ledger change. -/
def executeMigration (cfg : MigratorConfig) (st : DBState) (mig : Migration) (isUp : Bool) :
    DBState × Option String :=
  if cfg.DryRun then (st, none)
  else
    let migrationErr := if isUp then mig.upErr else mig.downErr
    let st1 := { st with actionLog := st.actionLog ++ [(mig.version, isUp)] }
    let txLedger :=
      if isUp then
        match migrationErr with
        | none => st1.ledger ++ [⟨mig.version, mig.description, st1.clock, true, ""⟩]
        | some e => st1.ledger ++ [⟨mig.version, mig.description, st1.clock, false, e⟩]
      else
        st1.ledger.filter (fun r => !(r.Version == mig.version))
    match migrationErr with
    | some e => (st1, some e)
    | none => ({ st1 with ledger := txLedger, clock := st1.clock + 1 }, none)

/-- The pending-migration loop inside `Migrator.Up`: skip versions already
recorded as applied, execute the rest in order, aborting on the first
failure. -/
def upLoop (cfg : MigratorConfig) : List Migration → List String → DBState → DBState × Option String
  | [], _, st => (st, none)
  | mig :: rest, applied, st =>
    if mig.version ∈ applied then upLoop cfg rest applied st
    else
      let p := executeMigration cfg st mig true
      match p.2 with
      | some e => (p.1, some ("执行迁移 " ++ mig.version ++ " 失败: " ++ e))
      | none => upLoop cfg rest applied p.1

/-- Embeds `Migrator.Up` (multi_migrator.go, lines 357–396): acquire the
lock (failing fast on contention), sort the migrations, load the applied
version set, run the pending loop, and release the lock on every exit path
(the deferred `releaseLock`). -/
def Migrator.Up (m : Migrator) (st : DBState) : DBState × Option String :=
  match acquireLock st with
  | Except.error e => (st, some ("获取迁移锁失败: " ++ e))
  | Except.ok st1 =>
    let sorted := sortMigrations m.migrations
    let applied := appliedVersions st1.ledger
    let p := upLoop m.config sorted applied st1
    (releaseLock p.1, p.2)

/-- Insertion step for ordering ledger rows by `applied_at` descending. -/
def insertRecDesc (a : MigrationRecord) : List MigrationRecord → List MigrationRecord
  | [] => [a]
  | b :: bs => if b.AppliedAt ≥ a.AppliedAt then b :: insertRecDesc a bs else a :: b :: bs

/-- Embeds `getAppliedMigrationsOrdered(ctx, "DESC")`:
`SELECT ... WHERE success = TRUE ORDER BY applied_at DESC`. -/
def getAppliedMigrationsOrderedDesc (led : List MigrationRecord) : List MigrationRecord :=
  (led.filter (fun r => r.Success)).foldr insertRecDesc []

/-- The `migrationMap` lookup of `Migrator.Down` (map insertion: the last
registration of a version wins). -/
def migrationMapFind (migs : List Migration) (v : String) : Option Migration :=
  migs.reverse.find? (fun mg => mg.version == v)

/-- The revert loop inside `Migrator.Down`: a recorded version with no
registered definition is skipped with a warning; otherwise the down action
runs and a failure aborts the loop. -/
def downLoop (cfg : MigratorConfig) (migs : List Migration) :
    List MigrationRecord → DBState → DBState × Option String
  | [], st => (st, none)
  | r :: rest, st =>
    match migrationMapFind migs r.Version with
    | none => downLoop cfg migs rest st
    | some mig =>
      let p := executeMigration cfg st mig false
      match p.2 with
      | some e => (p.1, some ("回滚迁移 " ++ mig.version ++ " 失败: " ++ e))
      | none => downLoop cfg migs rest p.1

/-- Embeds `Migrator.Down` (multi_migrator.go, lines 399–451): positive-steps
check, lock acquisition, applied rows ordered by `applied_at` descending,
revert of the first `steps` rows, lock release on every exit path. -/
def Migrator.Down (m : Migrator) (st : DBState) (steps : Int) : DBState × Option String :=
  if steps ≤ 0 then (st, some "回滚步数必须大于0")
  else
    match acquireLock st with
    | Except.error e => (st, some ("获取迁移锁失败: " ++ e))
    | Except.ok st1 =>
      let applied := getAppliedMigrationsOrderedDesc st1.ledger
      if applied.length = 0 then (releaseLock st1, none)
      else
        let stepsN := min steps.toNat applied.length
        let p := downLoop m.config m.migrations (applied.take stepsN) st1
        (releaseLock p.1, p.2)

/-- Embeds `migrator.TxWrapper`, the `types.DB` capability handed to every
migration action by `executeMigration` (`migration.Up(ctx, &TxWrapper{tx})`);
it forwards Exec/Query to the open transaction, represented here by an
opaque handle. -/
structure TxWrapper where
  tx : Nat
deriving DecidableEq, Repr

/-- Embeds `TxWrapper.Begin` (multi_migrator.go, lines 764–766): Go returns
`(nil, error)`, embedded as the pair (no transaction, the error message). -/
def TxWrapper.Begin (_tw : TxWrapper) : Option TxWrapper × Option String :=
  (none, some "在事务中不能开始新事务")

/-- A migrator holding one migration whose up action fails (`boom`) followed
by one pending migration that would succeed. -/
def mFail : Migrator :=
  ⟨[⟨"001", "create users", some "boom", none⟩, ⟨"002", "add index", none, none⟩], ⟨false⟩⟩

/-- A migrator holding two migrations whose actions succeed. -/
def mOK : Migrator :=
  ⟨[⟨"001", "create users", none, none⟩, ⟨"002", "add index", none, none⟩], ⟨false⟩⟩

/-- A fresh database: empty ledger, lock free. -/
def stEmpty : DBState :=
  ⟨[], false, 0, []⟩

/-- A database whose lock row is held by another process. -/
def stHeld : DBState :=
  ⟨[], true, 0, []⟩

/-- The database state after `mOK` has been fully applied to `stEmpty`. -/
def stApplied : DBState :=
  ⟨[⟨"001", "create users", 0, true, ""⟩, ⟨"002", "add index", 1, true, ""⟩],
   false, 2, [("001", true), ("002", true)]⟩

end migrator

namespace database

open sqlparser (dedupFirst)

/-- A parsed SQL value (`interface{}` in Go); the claims below depend only on
row counts, not on value contents. -/
inductive Value where
  | VNull : Value
  | VInt : Int → Value
  | VStr : String → Value
  | VBool : Bool → Value
deriving DecidableEq, Repr

/-- Embeds `types.InsertStatement`. -/
structure InsertStatement where
  TableName : String
  Columns : List String
  Values : List (List Value)
  Statement : String
  LineNumber : Nat
deriving DecidableEq, Repr

/-- Embeds `types.DataInsertConfig` (the fields the inserter consults). -/
structure DataInsertConfig where
  BatchSize : Nat
  OnConflict : String
  StopOnError : Bool
  ValidateTables : Bool
  UseTransaction : Bool
deriving DecidableEq, Repr

/-- Embeds `types.TableInsertResult`. -/
structure TableInsertResult where
  TableName : String
  RowsInserted : Nat
  StatementsExecuted : Nat
deriving DecidableEq, Repr

/-- Embeds `types.DataInsertResult` (the fields set on the success path;
`ExecutionTime` is wall-clock formatting and is out of scope). -/
structure DataInsertResult where
  DatabaseName : String
  TotalStatements : Nat
  SuccessfulStatements : Nat
  FailedStatements : Nat
  TotalRowsInserted : Nat
  TableResults : List TableInsertResult
deriving DecidableEq, Repr

/-- Embeds `totalBatches := (len(stmt.Values) + batchSize - 1) / batchSize`. -/
def totalBatches (R B : Nat) : Nat :=
  (R + B - 1) / B

/-- The slice `stmt.Values[start:end]` taken by batch number `k` in
`executeBatchInsertDB`/`executeBatchInsert`. -/
def batchAt (values : List α) (B k : Nat) : List α :=
  let start := k * B
  let stop := min (start + B) values.length
  (values.drop start).take (stop - start)

/-- The sequence of row batches the executor loop walks: batch `k` is
`values[k*B : min((k+1)*B, R)]`, for `k < totalBatches`.  Each batch is
turned into exactly one multi-row `INSERT` and one `ExecContext` call (also
on the ignore-conflict path, which `continue`s only after the call). -/
def batches (values : List α) (B : Nat) : List (List α) :=
  (List.range (totalBatches values.length B)).map (batchAt values B)

/-- The execute calls `executeBatchInsertDB` issues for one statement:
`(table, row count)` per batch. -/
def execCalls (stmt : InsertStatement) (B : Nat) : List (String × Nat) :=
  (batches stmt.Values B).map (fun b => (stmt.TableName, b.length))

/-- The first value row whose arity differs from the column count, with its
index (the inner loop of `ValidateInsertStatements`). -/
def findMismatch (cols : Nat) : Nat → List (List Value) → Option (Nat × Nat)
  | _, [] => none
  | j, v :: vs => if v.length ≠ cols then some (j, v.length) else findMismatch cols (j + 1) vs

/-- The per-statement loop of `ValidateInsertStatements`. -/
def validateLoop : Nat → List InsertStatement → Except String Unit
  | _, [] => Except.ok ()
  | i, stmt :: rest =>
    if stmt.TableName = "" then Except.error ("第" ++ toString (i + 1) ++ "个语句缺少表名")
    else if stmt.Values.length = 0 then Except.error ("第" ++ toString (i + 1) ++ "个语句缺少插入值")
    else
      match (if stmt.Columns.length > 0 then findMismatch stmt.Columns.length 0 stmt.Values else none) with
      | some jm =>
          Except.error ("第" ++ toString (i + 1) ++ "个语句第" ++ toString (jm.1 + 1) ++
            "组值的列数不匹配：期望" ++ toString stmt.Columns.length ++ "列，实际" ++ toString jm.2 ++ "列")
      | none => validateLoop (i + 1) rest

/-- Embeds `InsertParser.ValidateInsertStatements`. -/
def ValidateInsertStatements (stmts : List InsertStatement) : Except String Unit :=
  if stmts.length = 0 then Except.error "没有找到有效的INSERT语句"
  else validateLoop 0 stmts

/-- Embeds `InsertParser.ExtractTableNames`: referenced tables, first
occurrence first. -/
def ExtractTableNames (stmts : List InsertStatement) : List String :=
  dedupFirst [] (stmts.map (fun s => s.TableName))

/-- Embeds `Inserter.ValidateTablesExist` (inserter.go, lines 119–138):
query the metadata catalog for each table in turn — the oracle `tblExists`
answers the per-table `INFORMATION_SCHEMA` lookup — and return on the FIRST
table that does not exist. -/
def ValidateTablesExist (tblExists : String → Bool) (tables : List String) : Except String Unit :=
  match tables with
  | [] => Except.ok ()
  | t :: rest =>
    if tblExists t then ValidateTablesExist tblExists rest
    else Except.error ("表 " ++ t ++ " 不存在")

/-- The per-table statistics block of `InsertFromSQLFile` (inserter.go,
lines 97–113): for each table, `StatementsExecuted` is incremented once per
parsed statement and `RowsInserted` by that statement's row count.  The Go
map is materialised in first-occurrence order. -/
def tableResults (stmts : List InsertStatement) : List TableInsertResult :=
  (dedupFirst [] (stmts.map (fun s => s.TableName))).map (fun t =>
    { TableName := t
      RowsInserted := ((stmts.filter (fun s => s.TableName == t)).map (fun s => s.Values.length)).sum
      StatementsExecuted := (stmts.filter (fun s => s.TableName == t)).length })

/-- Embeds `Inserter.InsertFromSQLFile` after parsing (inserter.go, lines
55–115), in an environment where every issued batch insert succeeds: the
empty-file check, `ValidateInsertStatements`, the optional
`ValidateTablesExist` gate, then execution and the result summary.  The
second component is the list of execute calls issued (empty whenever a
pre-execution check fails: validation happens before any insert runs). -/
def InsertFromSQLFile (dbName : String) (tblExists : String → Bool)
    (cfg : DataInsertConfig) (stmts : List InsertStatement) :
    Except String DataInsertResult × List (String × Nat) :=
  if stmts.length = 0 then (Except.error "SQL文件中没有找到有效的INSERT语句", [])
  else
    match ValidateInsertStatements stmts with
    | Except.error e => (Except.error e, [])
    | Except.ok _ =>
      match (if cfg.ValidateTables then ValidateTablesExist tblExists (ExtractTableNames stmts)
             else Except.ok ()) with
      | Except.error e => (Except.error e, [])
      | Except.ok _ =>
        let results := tableResults stmts
        (Except.ok
          { DatabaseName := dbName
            TotalStatements := stmts.length
            SuccessfulStatements := stmts.length
            FailedStatements := 0
            TotalRowsInserted := (results.map (fun r => r.RowsInserted)).sum
            TableResults := results },
         stmts.flatMap (fun s => execCalls s cfg.BatchSize))

/-- Does `pat` occur as a contiguous run of `s`?  Used to state that an error
message does (not) mention a table name. -/
def hasSub (s pat : List Char) : Bool :=
  match s with
  | [] => pat.isEmpty
  | _ :: cs => sqlparser.leadMatch pat s || hasSub cs pat

/-- The claim scenario's first statement: 3 value rows for `table1`. -/
def exInsert1 : InsertStatement :=
  ⟨"table1", ["c"], [[.VInt 1], [.VInt 2], [.VInt 3]], "INSERT INTO table1 ...", 1⟩

/-- The claim scenario's second statement: 5 value rows for `table2`. -/
def exInsert2 : InsertStatement :=
  ⟨"table2", ["c"], [[.VInt 4], [.VInt 5], [.VInt 6], [.VInt 7], [.VInt 8]], "INSERT INTO table2 ...", 2⟩

/-- The claim scenario's configuration: batch size 2, conflict policy
`ignore`. -/
def exConfig : DataInsertConfig :=
  ⟨2, "ignore", true, false, false⟩

end database

/-! ## Theorems -/

open sqlparser migrator database

/-- Claim C1 (settled against the code, which diverges from the claim).  The
claim asserts that `SortByDependencies` places every statement after all its
dependencies, and in particular `orders` before `order_items`.  The code runs
Kahn's algorithm but then re-sorts the emitted list by `(typeOrder, Name)`:
both statements are `CREATE_TABLE`, and `"order_items" < "orders"`
byte-wise, so the resolver returns `order_items` BEFORE the table its
foreign key references — in both input orders. -/
theorem c1_resolver_breaks_dependency_order :
    SortByDependencies [ordersStmt, orderItemsStmt] = Except.ok [orderItemsStmt, ordersStmt]
    ∧ SortByDependencies [orderItemsStmt, ordersStmt] = Except.ok [orderItemsStmt, ordersStmt]
    ∧ orderItemsStmt.Dependencies = ["orders"]
    ∧ ordersStmt.Name = "orders" := by
  exact ⟨rfl, rfl, rfl, rfl⟩

/-- Claim C2 (settled against the code, which diverges from the claim).  When a
forward migration's action fails, `executeMigration` writes the failure
ledger row inside the very transaction that the deferred `tx.Rollback()`
then discards, so no failed row persists.  Running `Up` on a fresh database
with a failing migration `001` followed by a pending `002`: the error is
propagated and `002` is never attempted (both as claimed), but the ledger
stays empty — the failure row the claim requires is not persisted. -/
theorem c2_failed_up_persists_no_ledger_row :
    Migrator.Up mFail stEmpty =
      (⟨[], false, 0, [("001", true)]⟩, some "执行迁移 001 失败: boom") := by
  exact rfl

/-- Claim C10 (confirmed).  The `types.DB` capability handed to every migration
action by `executeMigration` is a `TxWrapper`, and its `Begin` always
returns `(nil, error)`: a migration body can never open a nested
transaction. -/
theorem c10_txwrapper_begin_always_errors (tw : TxWrapper) :
    TxWrapper.Begin tw = (none, some "在事务中不能开始新事务") := by
  exact rfl

/-- Claim C7, counterexample.  The claim expects the result summary to report
2 executed statements for `table1` (3 rows, batch size 2) and 3 for `table2`
(5 rows).  The summary block of `InsertFromSQLFile` increments
`StatementsExecuted` once per parsed INSERT statement, not once per issued
batch, so each table reports exactly 1 executed statement. -/
theorem c7_summary_counts_statements_not_batches :
    (InsertFromSQLFile "db" (fun _ => true) exConfig [exInsert1, exInsert2]).1 =
      Except.ok ⟨"db", 2, 2, 0, 8, [⟨"table1", 3, 1⟩, ⟨"table2", 5, 1⟩]⟩
    ∧ ∀ r ∈ tableResults [exInsert1, exInsert2], r.StatementsExecuted ≠ 2 ∧ r.StatementsExecuted ≠ 3 := by
  exact ⟨rfl, by decide⟩

/-- Claim C7, amended and proved.  For the scenario (one statement with 3
rows for `table1`, one with 5 rows for `table2`, batch size 2, conflict
policy `ignore`), the summary reports 3 rows and **1** executed statement
for `table1` and 5 rows and **1** executed statement for `table2`
(`StatementsExecuted` counts parsed INSERT statements); the batch executor
separately issues 2 execute calls for `table1` and 3 for `table2`. -/
theorem c7_amended_summary_and_exec_calls :
    InsertFromSQLFile "db" (fun _ => true) exConfig [exInsert1, exInsert2] =
      (Except.ok ⟨"db", 2, 2, 0, 8, [⟨"table1", 3, 1⟩, ⟨"table2", 5, 1⟩]⟩,
       [("table1", 2), ("table1", 1), ("table2", 2), ("table2", 2), ("table2", 1)]) := by
  exact rfl

/-- Claim C8, counterexample.  With both `t1` and `t2` missing, the
pre-execution check stops at the first missing table: the error message is
exactly `表 t1 不存在` and does not mention `t2`, refuting the claimed
single combined error listing all missing tables. -/
theorem c8_validation_names_only_first_missing :
    ValidateTablesExist (fun _ => false) ["t1", "t2"] = Except.error "表 t1 不存在"
    ∧ hasSub "表 t1 不存在".toList "t2".toList = false := by
  exact ⟨rfl, by decide⟩

/-- Claim C8, amended and proved.  When table validation is enabled and at
least one referenced table is missing, the check fails before any insert is
executed, with an error naming the FIRST missing table in reference order
(tables after it are not consulted for the message): for any oracle, any
split `pre ++ t :: post` with every table of `pre` present and `t` missing,
`ValidateTablesExist` returns `表 t 不存在`, and `InsertFromSQLFile` with
validation enabled returns that error having issued zero execute calls. -/
theorem c8_amended_fails_fast_on_first_missing (tblExists : String → Bool)
    (pre post : List String) (t : String)
    (hpre : ∀ u ∈ pre, tblExists u = true) (ht : tblExists t = false) :
    ValidateTablesExist tblExists (pre ++ t :: post) = Except.error ("表 " ++ t ++ " 不存在")
    ∧ ∀ (dbName : String) (cfg : DataInsertConfig) (stmts : List InsertStatement),
        cfg.ValidateTables = true →
        stmts ≠ [] →
        ValidateInsertStatements stmts = Except.ok () →
        ExtractTableNames stmts = pre ++ t :: post →
        InsertFromSQLFile dbName tblExists cfg stmts =
          (Except.error ("表 " ++ t ++ " 不存在"), []) := by
  have hval : ValidateTablesExist tblExists (pre ++ t :: post) =
      Except.error ("表 " ++ t ++ " 不存在") := by
    induction pre with
    | nil => simp [ValidateTablesExist, ht]
    | cons u us ih =>
      have hu : tblExists u = true := hpre u (by simp)
      simp only [List.cons_append, ValidateTablesExist, hu, if_true]
      exact ih (fun v hv => hpre v (by simp [hv]))
  refine ⟨hval, ?_⟩
  intro dbName cfg stmts hcfg hne hstmts hnames
  have hlen : ¬ stmts.length = 0 := by simpa [List.length_eq_zero] using hne
  simp [InsertFromSQLFile, hlen, hstmts, hcfg, hnames, hval]

/-- Claim C9, counterexample.  The one-line script `CREATE TABLE a (x INT)`
has no terminating delimiter.  `ParseFile` nevertheless succeeds with an
empty statement list — the trailing text sits in the statement accumulator
when the lines run out and is silently dropped, with no error and no line
number, refuting the claimed unterminated-statement error. -/
theorem c9_unterminated_statement_dropped_silently :
    ParseFile parseStmtUnused ["CREATE TABLE a (x INT)"] = Except.ok []
    ∧ parseFileLoop parseStmtUnused ["CREATE TABLE a (x INT)"] initFileScan =
        Except.ok fsUnterminated
    ∧ fsUnterminated.current ≠ "" := by
  exact ⟨rfl, rfl, by decide⟩

/-- Claim C9, amended and proved.  For every script whose scan ends with a
nonempty unfinished statement accumulator (an unterminated final statement)
and no earlier error, `ParseFile` succeeds and returns exactly the
statements completed by the delimiter: the trailing text is silently
dropped, no error and no line number are reported. -/
theorem c9_amended_parsefile_drops_trailing_text
    (parseStmt : String → Except String (Option SQLStatement))
    (lines : List String) (fs : FileScan)
    (h : parseFileLoop parseStmt lines initFileScan = Except.ok fs)
    (hcur : fs.current ≠ "") :
    ParseFile parseStmt lines = Except.ok fs.statements := by
  simp [ParseFile, h, Except.map]

/-- Witness for `c9_amended_parsefile_drops_trailing_text` at the concrete
unterminated one-line script. -/
theorem c9_amended_witness :
    parseFileLoop parseStmtUnused ["CREATE TABLE a (x INT)"] initFileScan =
        Except.ok fsUnterminated
    ∧ fsUnterminated.current ≠ ""
    ∧ ParseFile parseStmtUnused ["CREATE TABLE a (x INT)"] = Except.ok fsUnterminated.statements := by
  refine ⟨rfl, by decide, ?_⟩
  exact c9_amended_parsefile_drops_trailing_text parseStmtUnused _ fsUnterminated rfl (by decide)

/-- The `k`-th batch slice has `min B (R - k*B)` rows, for every `k`. -/
theorem batchAt_length {α : Type} (values : List α) (B k : Nat) :
    (batchAt values B k).length = min B (values.length - k * B) := by
  simp only [batchAt, List.length_take, List.length_drop]
  omega

/-- Batch `0` is the first `B` rows. -/
theorem batchAt_zero {α : Type} (values : List α) (B : Nat) :
    batchAt values B 0 = values.take B := by
  simp only [batchAt, Nat.zero_mul, List.drop_zero, Nat.zero_add, Nat.sub_zero]
  rw [List.take_eq_take]
  omega

/-- Batch `k+1` of `values` is batch `k` of `values` without its first `B`
rows. -/
theorem batchAt_succ {α : Type} (values : List α) (B k : Nat) :
    batchAt values B (k + 1) = batchAt (values.drop B) B k := by
  simp only [batchAt, List.drop_drop, List.length_drop]
  rw [Nat.succ_mul]
  have hd : k * B + B = B + k * B := by omega
  rw [hd]
  congr 1
  generalize k * B = t
  omega

/-- Peeling one batch off a nonempty row list. -/
theorem batches_cons {α : Type} (B : Nat) (hB : 1 ≤ B) (values : List α)
    (hR : 1 ≤ values.length) :
    batches values B = values.take B :: batches (values.drop B) B := by
  have htb : totalBatches values.length B = totalBatches (values.drop B).length B + 1 := by
    simp only [totalBatches, List.length_drop]
    have h1 : values.length + B - 1 = (values.length - 1) + B := by omega
    rw [h1, Nat.add_div_right _ (by omega)]
    rcases le_or_lt B values.length with hle | hlt
    · have h2 : values.length - B + B - 1 = values.length - 1 := by omega
      rw [h2]
    · have h2 : values.length - B = 0 := by omega
      rw [h2]
      have h3 : (0 + B - 1) / B = 0 := Nat.div_eq_of_lt (by omega)
      have h4 : (values.length - 1) / B = 0 := Nat.div_eq_of_lt (by omega)
      rw [h3, h4]
  simp only [batches, htb, List.range_succ_eq_map, List.map_cons, List.map_map]
  rw [batchAt_zero]
  congr 1
  apply List.map_congr_left
  intro k _
  exact batchAt_succ values B k

/-- Concatenating all batches recovers the row list exactly. -/
theorem batches_flatten {α : Type} (B : Nat) (hB : 1 ≤ B) :
    ∀ (n : Nat) (values : List α), values.length ≤ n → (batches values B).flatten = values := by
  have hnil : batches ([] : List α) B = [] := by
    have hb : totalBatches 0 B = 0 := by
      simp only [totalBatches, Nat.zero_add]
      exact Nat.div_eq_of_lt (by omega)
    simp only [batches, List.length_nil, hb, List.range_zero, List.map_nil]
  intro n
  induction n with
  | zero =>
    intro values hv
    have h0 : values = [] := List.length_eq_zero.mp (Nat.le_zero.mp hv)
    subst h0
    simp [hnil]
  | succ n ih =>
    intro values hv
    by_cases h0 : values.length = 0
    · have h0' : values = [] := List.length_eq_zero.mp h0
      subst h0'
      simp [hnil]
    · rw [batches_cons B hB values (by omega), List.flatten_cons,
        ih (values.drop B) (by simp only [List.length_drop]; omega),
        List.take_append_drop]

/-- Claim C6 (confirmed).  For a statement with `R ≥ 1` value rows executed
with batch size `B ≥ 1`, the executor loop of
`executeBatchInsertDB`/`executeBatchInsert` issues exactly `⌈R/B⌉` execute
calls; the `k`-th (0-based) carries exactly `min B (R - k*B)` rows of the
statement's table; and the rows sent across all batches are exactly the
statement's rows (in particular they total `R`). -/
theorem c6_batch_execution (stmt : InsertStatement) (B : Nat)
    (hB : 1 ≤ B) (hR : 1 ≤ stmt.Values.length) :
    (execCalls stmt B).length = stmt.Values.length ⌈/⌉ B
    ∧ (∀ k (hk : k < (execCalls stmt B).length),
        (execCalls stmt B).get ⟨k, hk⟩ = (stmt.TableName, min B (stmt.Values.length - k * B)))
    ∧ (batches stmt.Values B).flatten = stmt.Values
    ∧ ((execCalls stmt B).map (fun c => c.2)).sum = stmt.Values.length := by
  have hjoin : (batches stmt.Values B).flatten = stmt.Values :=
    batches_flatten B hB stmt.Values.length stmt.Values (Nat.le_refl _)
  refine ⟨?_, ?_, hjoin, ?_⟩
  · simp [execCalls, batches, totalBatches, Nat.ceilDiv_eq_add_pred_div]
  · intro k hk
    simp only [execCalls, batches, List.get_eq_getElem, List.getElem_map, List.getElem_range]
    rw [batchAt_length]
  · have hlen : ((batches stmt.Values B).map List.length).sum = stmt.Values.length := by
      rw [← List.length_flatten, hjoin]
    simpa [execCalls, List.map_map, Function.comp] using hlen

/-- Witness for `c6_batch_execution`: the 5-row statement of the claim
scenario with batch size 2 issues `⌈5/2⌉` calls, the batches together
carrying exactly the statement's rows. -/
theorem c6_batch_execution_witness :
    (execCalls exInsert2 2).length = exInsert2.Values.length ⌈/⌉ 2
    ∧ (batches exInsert2.Values 2).flatten = exInsert2.Values
    ∧ ((execCalls exInsert2 2).map (fun c => c.2)).sum = exInsert2.Values.length := by
  have h := c6_batch_execution exInsert2 2 (by decide) (by decide)
  exact ⟨h.1, h.2.2.1, h.2.2.2⟩

/-- Claim C5 (confirmed).  The lock discipline of the runner: (a) when the lock
row is already held, `Up` and `Down` (with a positive step count) fail with
the descriptive lock-contention error and the state — ledger, action history,
everything — is untouched, so no migration unit is executed; (b) on every
exit path the lock flag is restored to its entry value (released when it was
acquired, left alone when acquisition failed); (c) of two callers contending
for a free lock, the first conditional update succeeds and any caller that
then tries again observes the contention error: exactly one succeeds. -/
theorem c5_lock_protocol (m : Migrator) (st : DBState) (steps : Int) :
    (st.locked = true →
      Migrator.Up m st = (st, some ("获取迁移锁失败: " ++ "无法获取迁移锁，可能有其他迁移正在进行"))
      ∧ (1 ≤ steps →
          Migrator.Down m st steps =
            (st, some ("获取迁移锁失败: " ++ "无法获取迁移锁，可能有其他迁移正在进行"))))
    ∧ ((Migrator.Up m st).1.locked = st.locked ∧ (Migrator.Down m st steps).1.locked = st.locked)
    ∧ (st.locked = false →
        acquireLock st = Except.ok { st with locked := true }
        ∧ ∀ st', acquireLock st = Except.ok st' →
            acquireLock st' = Except.error "无法获取迁移锁，可能有其他迁移正在进行") := by
  refine ⟨?_, ⟨?_, ?_⟩, ?_⟩
  · intro hlock
    constructor
    · simp [Migrator.Up, acquireLock, hlock]
    · intro hsteps
      simp [Migrator.Down, acquireLock, hlock, show ¬ steps ≤ 0 by omega]
  · cases hlock : st.locked
    · simp [Migrator.Up, acquireLock, hlock, releaseLock]
    · simp [Migrator.Up, acquireLock, hlock]
  · by_cases hsteps : steps ≤ 0
    · simp [Migrator.Down, hsteps]
    · cases hlock : st.locked
      · simp only [Migrator.Down, hsteps, if_false, acquireLock, hlock, Bool.false_eq_true]
        split
        · simp [releaseLock]
        · simp [releaseLock]
      · simp [Migrator.Down, hsteps, acquireLock, hlock]
  · intro hlock
    have hacq : acquireLock st = Except.ok { st with locked := true } := by
      simp [acquireLock, hlock]
    refine ⟨hacq, ?_⟩
    intro st' h
    rw [hacq] at h
    cases h
    simp [acquireLock]

/-- Witness for `c5_lock_protocol`: with the lock held, `Up` fails fast and
untouched; with it free, the first conditional update acquires it and a
second attempt on the resulting state observes the contention error. -/
theorem c5_lock_protocol_witness :
    Migrator.Up mOK stHeld =
      (stHeld, some ("获取迁移锁失败: " ++ "无法获取迁移锁，可能有其他迁移正在进行"))
    ∧ Migrator.Down mOK stHeld 1 =
      (stHeld, some ("获取迁移锁失败: " ++ "无法获取迁移锁，可能有其他迁移正在进行"))
    ∧ acquireLock stEmpty = Except.ok { stEmpty with locked := true }
    ∧ acquireLock { stEmpty with locked := true } =
        Except.error "无法获取迁移锁，可能有其他迁移正在进行" := by
  have h1 := (c5_lock_protocol mOK stHeld 1).1 (by decide)
  have h2 := (c5_lock_protocol mOK stEmpty 1).2.2 (by decide)
  exact ⟨h1.1, h1.2 (by omega), h2.1, h2.2 _ h2.1⟩

/-- Appending a ledger row extends the applied-version set by the row's
version exactly when the row is a success row. -/
theorem appliedVersions_append (l : List MigrationRecord) (r : MigrationRecord) :
    appliedVersions (l ++ [r]) =
      appliedVersions l ++ (if r.Success then [r.Version] else []) := by
  simp only [appliedVersions, List.filter_append, List.map_append]
  cases hr : r.Success <;> simp [hr]

/-- A completed pass of the pending-migration loop only ever adds success
rows: the applied-version set grows monotonically, and on exit every listed
migration is recorded as applied (it either was already, or its success row
was just written and survives to the end). -/
theorem upLoop_ok (cfg : MigratorConfig) (hdry : cfg.DryRun = false) :
    ∀ (migs : List Migration) (applied : List String) (st st' : DBState),
      upLoop cfg migs applied st = (st', none) →
      (∀ v, v ∈ appliedVersions st.ledger → v ∈ appliedVersions st'.ledger)
      ∧ (∀ mig ∈ migs, mig.version ∈ applied ∨ mig.version ∈ appliedVersions st'.ledger) := by
  intro migs
  induction migs with
  | nil =>
    intro applied st st' h
    simp only [upLoop, Prod.mk.injEq] at h
    rw [← h.1]
    exact ⟨fun v hv => hv, by simp⟩
  | cons mig rest ih =>
    intro applied st st' h
    by_cases hskip : mig.version ∈ applied
    · simp only [upLoop, hskip, if_true] at h
      obtain ⟨hmono, hcover⟩ := ih applied st st' h
      refine ⟨hmono, ?_⟩
      intro mg hmg
      rcases List.mem_cons.mp hmg with hmg | hmg
      · exact Or.inl (hmg ▸ hskip)
      · exact hcover mg hmg
    · cases hue : mig.upErr with
      | some e =>
        exfalso
        simp [upLoop, hskip, executeMigration, hdry, hue] at h
      | none =>
        have hexec : executeMigration cfg st mig true =
            ({ st with
                actionLog := st.actionLog ++ [(mig.version, true)],
                ledger := st.ledger ++ [⟨mig.version, mig.description, st.clock, true, ""⟩],
                clock := st.clock + 1 }, none) := by
          simp [executeMigration, hdry, hue]
        simp only [upLoop, hskip, if_false, hexec] at h
        obtain ⟨hmono, hcover⟩ := ih applied _ st' h
        have hmono' : ∀ v, v ∈ appliedVersions st.ledger → v ∈ appliedVersions st'.ledger := by
          intro v hv
          apply hmono
          rw [appliedVersions_append]
          simp [hv]
        refine ⟨hmono', ?_⟩
        intro mg hmg
        rcases List.mem_cons.mp hmg with hmg | hmg
        · subst hmg
          refine Or.inr (hmono mg.version ?_)
          rw [appliedVersions_append]
          simp
        · exact hcover mg hmg

/-- When every listed migration is already applied, the pending loop is the
identity: nothing is executed and the state is returned untouched. -/
theorem upLoop_all_skip (cfg : MigratorConfig) :
    ∀ (migs : List Migration) (applied : List String) (st : DBState),
      (∀ mig ∈ migs, mig.version ∈ applied) →
      upLoop cfg migs applied st = (st, none) := by
  intro migs
  induction migs with
  | nil => intro applied st _; rfl
  | cons mig rest ih =>
    intro applied st hall
    have hmig : mig.version ∈ applied := hall mig (by simp)
    simp only [upLoop, hmig, if_true]
    exact ih applied st (fun mg hmg => hall mg (by simp [hmg]))

/-- Claim C3 (confirmed).  Running `Up` again immediately after an `Up` that
succeeded is a no-op: every version is already recorded as successfully
applied, so every unit is skipped, no migration action runs, and the
database state — ledger included — is returned exactly as it was. -/
theorem c3_up_twice_noop (m : Migrator) (st st1 : DBState)
    (hdry : m.config.DryRun = false)
    (h1 : Migrator.Up m st = (st1, none)) :
    Migrator.Up m st1 = (st1, none) := by
  by_cases hlock : st.locked
  · exfalso
    simp [Migrator.Up, acquireLock, hlock] at h1
  · have hacq : acquireLock st = Except.ok { st with locked := true } := by
      simp [acquireLock, hlock]
    rw [Migrator.Up, hacq] at h1
    simp only [Prod.mk.injEq] at h1
    obtain ⟨hst1, hp2⟩ := h1
    obtain ⟨hmono, hcover⟩ :=
      upLoop_ok m.config hdry (sortMigrations m.migrations)
        (appliedVersions { st with locked := true }.ledger) { st with locked := true } _
        (by rw [Prod.mk.injEq]; exact ⟨rfl, hp2⟩)
    have hledger1 : st1.ledger =
        (upLoop m.config (sortMigrations m.migrations)
          (appliedVersions st.ledger) { st with locked := true }).1.ledger := by
      rw [← hst1]; rfl
    have hlock1 : st1.locked = false := by
      rw [← hst1]; rfl
    have hacq1 : acquireLock st1 = Except.ok { st1 with locked := true } := by
      simp [acquireLock, hlock1]
    simp only [Migrator.Up, hacq1]
    have hall : ∀ mig ∈ sortMigrations m.migrations,
        mig.version ∈ appliedVersions { st1 with locked := true }.ledger := by
      intro mig hmig
      have : { st1 with locked := true }.ledger = st1.ledger := rfl
      rw [this, hledger1]
      rcases hcover mig hmig with hap | hap
      · exact hmono _ hap
      · exact hap
    rw [upLoop_all_skip m.config _ _ _ hall]
    have : releaseLock { st1 with locked := true } = st1 := by
      cases st1
      simp_all [releaseLock]
    rw [this]

/-- Witness for `c3_up_twice_noop`: after `mOK` is fully applied to a fresh
database, a second `Up` returns the same state with no error. -/
theorem c3_up_twice_noop_witness :
    Migrator.Up mOK stEmpty = (stApplied, none)
    ∧ Migrator.Up mOK stApplied = (stApplied, none) := by
  have h1 : Migrator.Up mOK stEmpty = (stApplied, none) := by rfl
  exact ⟨h1, c3_up_twice_noop mOK stEmpty stApplied rfl h1⟩

/-- Membership in the deduplicated key list. -/
theorem mem_dedupFirst (v : String) :
    ∀ (seen l : List String), v ∈ dedupFirst seen l ↔ v ∈ l ∧ v ∉ seen := by
  intro seen l
  induction l generalizing seen with
  | nil => simp [dedupFirst]
  | cons k ks ih =>
    by_cases hk : k ∈ seen
    · rw [dedupFirst, if_pos hk, ih seen]
      constructor
      · rintro ⟨h1, h2⟩
        exact ⟨List.mem_cons_of_mem _ h1, h2⟩
      · rintro ⟨h1, h2⟩
        rcases List.mem_cons.mp h1 with h1 | h1
        · exact absurd (h1 ▸ hk) h2
        · exact ⟨h1, h2⟩
    · rw [dedupFirst, if_neg hk]
      constructor
      · intro h
        rcases List.mem_cons.mp h with h | h
        · exact ⟨h ▸ List.mem_cons_self _ _, h ▸ hk⟩
        · obtain ⟨h1, h2⟩ := (ih (k :: seen)).mp h
          exact ⟨List.mem_cons_of_mem _ h1, fun hs => h2 (List.mem_cons_of_mem _ hs)⟩
      · rintro ⟨h1, h2⟩
        by_cases hvk : v = k
        · exact hvk ▸ List.mem_cons_self _ _
        · rcases List.mem_cons.mp h1 with h1 | h1
          · exact absurd h1 hvk
          · exact List.mem_cons_of_mem _
              ((ih (k :: seen)).mpr ⟨h1, by simp [hvk, h2]⟩)

/-- The deduplicated key list has no duplicates. -/
theorem dedupFirst_nodup : ∀ (seen l : List String), (dedupFirst seen l).Nodup := by
  intro seen l
  induction l generalizing seen with
  | nil => simp [dedupFirst]
  | cons k ks ih =>
    by_cases hk : k ∈ seen
    · rw [dedupFirst, if_pos hk]; exact ih seen
    · rw [dedupFirst, if_neg hk]
      refine List.Nodup.cons ?_ (ih (k :: seen))
      intro hmem
      exact ((mem_dedupFirst k (k :: seen) ks).mp hmem).2 (List.mem_cons_self _ _)

/-- Deduplication does not lengthen a list. -/
theorem dedupFirst_length_le : ∀ (seen l : List String), (dedupFirst seen l).length ≤ l.length := by
  intro seen l
  induction l generalizing seen with
  | nil => simp [dedupFirst]
  | cons k ks ih =>
    by_cases hk : k ∈ seen
    · rw [dedupFirst, if_pos hk]
      exact Nat.le_succ_of_le (ih seen)
    · rw [dedupFirst, if_neg hk]
      simpa using ih (k :: seen)

/-- Both endpoints of every built dependency edge are statement names, hence
keys of the resolver's maps. -/
theorem edges_mem_ks (stmts : List SQLStatement) (e : String × String) (he : e ∈ edges stmts) :
    e.1 ∈ dedupFirst [] (stmts.map (fun s => s.Name))
    ∧ e.2 ∈ dedupFirst [] (stmts.map (fun s => s.Name)) := by
  have hmem : ∀ v, v ∈ stmts.map (fun s => s.Name) →
      v ∈ dedupFirst [] (stmts.map (fun s => s.Name)) := by
    intro v hv
    exact (mem_dedupFirst v [] _).mpr ⟨hv, by simp⟩
  simp only [edges, List.mem_flatMap, List.mem_map, List.mem_filter] at he
  obtain ⟨s, hs, d, ⟨hd, hpres⟩, hde⟩ := he
  subst hde
  constructor
  · simp only [present, List.any_eq_true, beq_iff_eq] at hpres
    obtain ⟨s', hs', hname⟩ := hpres
    exact hmem _ (List.mem_map.mpr ⟨s', hs', hname⟩)
  · exact hmem _ (List.mem_map.mpr ⟨s, hs, rfl⟩)

/-- Adjacency membership is edge membership. -/
theorem mem_graphOf (E : List (String × String)) (q v : String) :
    v ∈ graphOf E q ↔ (q, v) ∈ E := by
  simp only [graphOf, List.mem_map, List.mem_filter, beq_iff_eq]
  constructor
  · rintro ⟨e, ⟨he, h1⟩, h2⟩
    have : e = (q, v) := Prod.ext h1 h2
    exact this ▸ he
  · intro h
    exact ⟨(q, v), ⟨h, rfl⟩, rfl⟩

/-- Occurrences of `v` among the neighbours of `q` count the `(q, v)` edges
(with multiplicity). -/
theorem count_graphOf (E : List (String × String)) (q v : String) :
    (graphOf E q).count v = E.countP (fun e => e.1 == q && e.2 == v) := by
  induction E with
  | nil => rfl
  | cons e E' ih =>
    by_cases h1 : e.1 = q <;> by_cases h2 : e.2 = v <;>
    · simp [graphOf, List.filter_cons, List.count_cons, List.countP_cons, h1, h2]
      simpa [graphOf] using ih

/-- Emitting `q` (not previously emitted) lowers each residual in-degree by
exactly the number of edges out of `q` into that node. -/
theorem remInDeg_append (E : List (String × String)) (em : List String) (q v : String)
    (hq : q ∉ em) :
    remInDeg E em v = remInDeg E (em ++ [q]) v + E.countP (fun e => e.1 == q && e.2 == v) := by
  induction E with
  | nil => rfl
  | cons e E' ih =>
    simp only [remInDeg, List.countP_cons] at ih ⊢
    have hcont : ∀ (l : List String) (x : String), l.contains x = decide (x ∈ l) := by
      intro l x
      exact List.elem_eq_mem x l
    by_cases h2 : e.2 = v <;> by_cases h1 : e.1 = q <;> by_cases hm : e.1 ∈ em <;>
      simp only [h2, h1, hcont, hm, List.mem_append, List.mem_singleton, beq_iff_eq] <;>
      simp_all <;> omega

/-- The inner-loop contract: provided every pending decrement is covered by
the current in-degree (no self-loops reach here) and the queue holds only
zero-degree names without duplicates, processing the neighbour list
decrements each in-degree by the neighbour's multiplicity, enqueues only
neighbours, keeps every queued name at degree zero, and preserves
distinctness. -/
theorem processNeighbors_spec :
    ∀ (ns : List String) (deg : String → Int) (queue : List String),
      (∀ v, (ns.count v : Int) ≤ deg v) →
      (∀ v ∈ queue, deg v = 0) →
      queue.Nodup →
      (∀ v, (processNeighbors ns deg queue).1 v = deg v - ns.count v)
      ∧ (∀ v ∈ (processNeighbors ns deg queue).2, v ∈ queue ∨ v ∈ ns)
      ∧ (∀ v ∈ (processNeighbors ns deg queue).2, (processNeighbors ns deg queue).1 v = 0)
      ∧ (processNeighbors ns deg queue).2.Nodup := by
  intro ns
  induction ns with
  | nil =>
    intro deg queue hcnt hq0 hnd
    exact ⟨fun v => by simp [processNeighbors], fun v hv => Or.inl hv, hq0, hnd⟩
  | cons n rest ih =>
    intro deg queue hcnt hq0 hnd
    have hcn : (List.count n (n :: rest) : Int) ≤ deg n := hcnt n
    have hcount_n : List.count n (n :: rest) = rest.count n + 1 := by
      simp [List.count_cons]
    rw [hcount_n] at hcn
    push_cast at hcn
    have hnotq : n ∉ queue := by
      intro hmem
      have h0 := hq0 n hmem
      omega
    have hcnt' : ∀ v, (rest.count v : Int) ≤
        (fun x => if x = n then deg n - 1 else deg x) v := by
      intro v
      by_cases hv : v = n
      · subst hv; simp only [if_pos rfl]; omega
      · have hnv : ¬ n = v := fun h => hv h.symm
        have : List.count v (n :: rest) = rest.count v := by
          simp [List.count_cons, hnv]
        have := hcnt v
        simp only [if_neg hv]
        omega
    have hq0' : ∀ v ∈ (if deg n - 1 = 0 then queue ++ [n] else queue),
        (fun x => if x = n then deg n - 1 else deg x) v = 0 := by
      intro v hv
      by_cases hz : deg n - 1 = 0
      · rw [if_pos hz] at hv
        rcases List.mem_append.mp hv with hv | hv
        · have hvn : v ≠ n := fun h => hnotq (h ▸ hv)
          simp only [if_neg hvn]
          exact hq0 v hv
        · have hvn : v = n := List.mem_singleton.mp hv
          subst hvn
          simp only [if_pos rfl]
          exact hz
      · rw [if_neg hz] at hv
        have hvn : v ≠ n := fun h => hnotq (h ▸ hv)
        simp only [if_neg hvn]
        exact hq0 v hv
    have hnd' : (if deg n - 1 = 0 then queue ++ [n] else queue).Nodup := by
      by_cases hz : deg n - 1 = 0
      · rw [if_pos hz]
        rw [List.nodup_append]
        exact ⟨hnd, List.nodup_singleton n, fun a ha hain => hnotq ((List.mem_singleton.mp hain) ▸ ha)⟩
      · rw [if_neg hz]; exact hnd
    obtain ⟨ihdeg, ihmem, ihq0, ihnd⟩ := ih _ _ hcnt' hq0' hnd'
    have hunf : processNeighbors (n :: rest) deg queue =
        processNeighbors rest (fun x => if x = n then deg n - 1 else deg x)
          (if deg n - 1 = 0 then queue ++ [n] else queue) := rfl
    rw [hunf]
    refine ⟨?_, ?_, ihq0, ihnd⟩
    · intro v
      rw [ihdeg v]
      by_cases hv : v = n
      · subst hv
        simp only [if_pos rfl, hcount_n]
        push_cast
        omega
      · have hnv : ¬ n = v := fun h => hv h.symm
        have : List.count v (n :: rest) = rest.count v := by
          simp [List.count_cons, hnv]
        simp only [if_neg hv, this]
    · intro v hv
      rcases ihmem v hv with hm | hm
      · by_cases hz : deg n - 1 = 0
        · rw [if_pos hz] at hm
          rcases List.mem_append.mp hm with hm | hm
          · exact Or.inl hm
          · exact Or.inr ((List.mem_singleton.mp hm) ▸ List.mem_cons_self _ _)
        · rw [if_neg hz] at hm
          exact Or.inl hm
      · exact Or.inr (List.mem_cons_of_mem _ hm)

/-- The outer-loop contract: starting from any state satisfying `KahnInv`,
whatever the fuel, the emitted list is duplicate-free, made of keys, and in
dependency order. -/
theorem kahnLoop_spec (E : List (String × String)) (ks : List String)
    (hks : ∀ e ∈ E, e.1 ∈ ks ∧ e.2 ∈ ks) :
    ∀ (fuel : Nat) (queue : List String) (deg : String → Int) (emitted : List String),
      KahnInv E ks queue deg emitted →
      (kahnLoop (graphOf E) fuel queue deg emitted).Nodup
      ∧ (∀ v ∈ kahnLoop (graphOf E) fuel queue deg emitted, v ∈ ks)
      ∧ Topo E (kahnLoop (graphOf E) fuel queue deg emitted) := by
  intro fuel
  induction fuel with
  | zero =>
    intro queue deg emitted hinv
    obtain ⟨_, hnd, _, hmemks, htopo⟩ := hinv
    exact ⟨hnd.of_append_left, fun v hv => hmemks v (List.mem_append_left _ hv), htopo⟩
  | succ fuel ih =>
    intro queue deg emitted hinv
    obtain ⟨hdeg, hnd, hq0, hmemks, htopo⟩ := hinv
    cases queue with
    | nil =>
      exact ⟨hnd.of_append_left, fun v hv => hmemks v (List.mem_append_left _ hv), htopo⟩
    | cons q rest =>
      have hqks : q ∈ ks := hmemks q (List.mem_append_right _ (List.mem_cons_self _ _))
      have hqnotem : q ∉ emitted := by
        intro hq
        exact (List.disjoint_of_nodup_append hnd) hq (List.mem_cons_self _ _)
      have hdegq : deg q = 0 := hq0 q (List.mem_cons_self _ _)
      have hrem0 : remInDeg E emitted q = 0 := by
        have h := hdeg q
        rw [hdegq] at h
        omega
      have hsrc : ∀ e ∈ E, e.2 = q → e.1 ∈ emitted := by
        intro e he h2
        by_contra hne
        have hall := List.countP_eq_zero.mp hrem0 e he
        simp [h2, List.elem_eq_mem, hne] at hall
      have hcnt : ∀ v, ((graphOf E q).count v : Int) ≤ deg v := by
        intro v
        rw [count_graphOf, hdeg v]
        have hmono : E.countP (fun e => e.1 == q && e.2 == v) ≤ remInDeg E emitted v := by
          apply List.countP_mono_left
          intro e _ hpe
          simp only [Bool.and_eq_true, beq_iff_eq] at hpe
          simp [remInDeg, hpe.1, hpe.2, List.elem_eq_mem, hqnotem]
        exact_mod_cast hmono
      have hq0rest : ∀ v ∈ rest, deg v = 0 :=
        fun v hv => hq0 v (List.mem_cons_of_mem _ hv)
      have hndrest : rest.Nodup := hnd.of_append_right.of_cons
      obtain ⟨pdeg, pmem, pq0, pnd⟩ :=
        processNeighbors_spec (graphOf E q) deg rest hcnt hq0rest hndrest
      have hnsfree : ∀ v ∈ graphOf E q, v ∉ emitted ∧ v ≠ q := by
        intro v hv
        have hedge : (q, v) ∈ E := (mem_graphOf E q v).mp hv
        constructor
        · intro hvem
          obtain ⟨l1, l2, hsplit, hq1⟩ := htopo (q, v) hedge hvem
          exact hqnotem (hsplit ▸ List.mem_append_left _ hq1)
        · intro hvq
          exact hqnotem (hsrc (q, v) hedge hvq)
      have hinv' : KahnInv E ks
          (processNeighbors (graphOf E q) deg rest).2
          (processNeighbors (graphOf E q) deg rest).1
          (emitted ++ [q]) := by
        refine ⟨?_, ?_, pq0, ?_, ?_⟩
        · intro v
          rw [pdeg v, hdeg v, count_graphOf]
          have hra := remInDeg_append E emitted q v hqnotem
          omega
        · have h1 : (emitted ++ [q]).Nodup := by
            refine List.Nodup.sublist ?_ hnd
            exact List.Sublist.append_left (List.Sublist.cons₂ q (List.nil_sublist rest)) emitted
          rw [List.nodup_append]
          refine ⟨h1, pnd, ?_⟩
          intro a ha hap
          rcases pmem a hap with ham | ham
          · rcases List.mem_append.mp ha with ha' | ha'
            · exact (List.disjoint_of_nodup_append hnd) ha' (List.mem_cons_of_mem _ ham)
            · have haq : a = q := List.mem_singleton.mp ha'
              subst haq
              exact (hnd.of_append_right.not_mem (a := a)) ham
          · obtain ⟨hnem, hnq⟩ := hnsfree a ham
            rcases List.mem_append.mp ha with ha' | ha'
            · exact hnem ha'
            · exact hnq (List.mem_singleton.mp ha')
        · intro v hv
          rcases List.mem_append.mp hv with hv' | hv'
          · rcases List.mem_append.mp hv' with hv'' | hv''
            · exact hmemks v (List.mem_append_left _ hv'')
            · exact (List.mem_singleton.mp hv'') ▸ hqks
          · rcases pmem v hv' with hm | hm
            · exact hmemks v (List.mem_append_right _ (List.mem_cons_of_mem _ hm))
            · exact (hks (q, v) ((mem_graphOf E q v).mp hm)).2
        · intro e he hmem
          rcases List.mem_append.mp hmem with hm | hm
          · obtain ⟨l1, l2, hsp, h1⟩ := htopo e he hm
            refine ⟨l1, l2 ++ [q], ?_, h1⟩
            rw [hsp]
            simp
          · have h2q : e.2 = q := List.mem_singleton.mp hm
            exact ⟨emitted, [], by rw [h2q], hsrc e he h2q⟩
      exact ih _ _ _ hinv'

/-- Computing `indexOf` across an append whose left part misses the element. -/
theorem indexOf_append_not_mem (x : String) :
    ∀ (l1 l2 : List String), x ∉ l1 →
      List.indexOf x (l1 ++ l2) = l1.length + List.indexOf x l2 := by
  intro l1
  induction l1 with
  | nil => intro l2 _; simp
  | cons a l1' ih =>
    intro l2 hx
    have hax : a ≠ x := fun h => hx (h ▸ List.mem_cons_self _ _)
    have hx' : x ∉ l1' := fun h => hx (List.mem_cons_of_mem _ h)
    have hbeq : (a == x) = false := beq_eq_false_iff_ne.mpr hax
    rw [List.cons_append, List.indexOf_cons, hbeq, cond_false, ih l2 hx', List.length_cons]
    omega

/-- In a duplicate-free dependency-ordered emission, the source of every
edge is indexed strictly before its target. -/
theorem topo_indexOf_lt (E : List (String × String)) (emitted : List String)
    (hnd : emitted.Nodup) (htopo : Topo E emitted)
    (e : String × String) (he : e ∈ E) (hm : e.2 ∈ emitted) :
    List.indexOf e.1 emitted < List.indexOf e.2 emitted := by
  obtain ⟨l1, l2, hsp, h1⟩ := htopo e he hm
  subst hsp
  have h2notl1 : e.2 ∉ l1 := by
    intro h
    exact (List.disjoint_of_nodup_append hnd) h (List.mem_cons_self _ _)
  rw [List.indexOf_append_of_mem h1, indexOf_append_not_mem _ _ _ h2notl1]
  have h0 : List.indexOf e.2 (e.2 :: l2) = 0 := by
    simp [List.indexOf_cons]
  have hlt := List.indexOf_lt_length.mpr h1
  omega

/-- Walking a chain of edges inside the emission only increases the index. -/
theorem chain_indexOf_le (E : List (String × String)) (emitted : List String)
    (hnd : emitted.Nodup) (htopo : Topo E emitted) :
    ∀ (t : List String) (a : String),
      List.Chain (fun u v => (u, v) ∈ E) a t →
      (∀ v ∈ a :: t, v ∈ emitted) →
      List.indexOf a emitted ≤ List.indexOf ((a :: t).getLast (List.cons_ne_nil a t)) emitted := by
  intro t
  induction t with
  | nil => intro a _ _; simp
  | cons b t' ih =>
    intro a hchain hall
    cases hchain with
    | cons hab hchain' =>
      have hbem : b ∈ emitted := hall b (List.mem_cons_of_mem _ (List.mem_cons_self _ _))
      have hlt : List.indexOf a emitted < List.indexOf b emitted :=
        topo_indexOf_lt E emitted hnd htopo (a, b) hab hbem
      have hle := ih b hchain' (fun v hv => hall v (List.mem_cons_of_mem _ hv))
      have hlast : (a :: b :: t').getLast (List.cons_ne_nil a (b :: t')) =
          (b :: t').getLast (List.cons_ne_nil b t') := by
        exact List.getLast_cons (List.cons_ne_nil b t')
      rw [hlast]
      omega

/-- Every node reached by a chain of built edges is a key. -/
theorem chain_targets_mem_ks (stmts : List SQLStatement) :
    ∀ (t : List String) (x : String),
      List.Chain (fun u v => (u, v) ∈ edges stmts) x t →
      ∀ v ∈ t, v ∈ dedupFirst [] (stmts.map (fun s => s.Name)) := by
  intro t
  induction t with
  | nil => intro x _ v hv; cases hv
  | cons b t' ih =>
    intro x hchain v hv
    cases hchain with
    | cons hxb hchain' =>
      rcases List.mem_cons.mp hv with hv | hv
      · exact hv ▸ (edges_mem_ks stmts (x, b) hxb).2
      · exact ih b hchain' v hv

/-- Claim C4 (confirmed).  Whenever the dependency graph restricted to the
names of the batch contains a cycle — a nonempty chain of built edges from
`a` through `t` whose last node has an edge back to `a` — the Kahn loop
cannot emit every statement, the emitted count falls short of the input
count, and `SortByDependencies` fails with the cycle error: no partial
ordering is ever returned. -/
theorem c4_cycle_always_error (stmts : List SQLStatement) (a : String) (t : List String)
    (hchain : List.Chain (fun u v => (u, v) ∈ edges stmts) a t)
    (hloop : ((a :: t).getLast (List.cons_ne_nil a t), a) ∈ edges stmts) :
    SortByDependencies stmts = Except.error "检测到循环依赖" := by
  simp only [SortByDependencies]
  set ks := dedupFirst [] (stmts.map (fun s => s.Name)) with hksdef
  set E := edges stmts with hEdef
  set deg0 : String → Int := fun v => ((E.filter (fun e => e.2 == v)).length : Int) with hdeg0
  set queue0 := ks.filter (fun n => deg0 n == 0) with hqueue0
  set emitted := kahnLoop (graphOf E) (stmts.length + E.length + 1) queue0 deg0 [] with hemit
  have hgate : emitted.length ≠ stmts.length := by
    intro heq
    have hksE : ∀ e ∈ E, e.1 ∈ ks ∧ e.2 ∈ ks := fun e he => edges_mem_ks stmts e he
    have hinv0 : KahnInv E ks queue0 deg0 [] := by
      refine ⟨?_, ?_, ?_, ?_, ?_⟩
      · intro v
        simp only [hdeg0, remInDeg, List.countP_eq_length_filter]
        norm_cast
        congr 1
        apply List.filter_congr
        intro e _
        simp [List.elem_eq_mem]
      · simp only [List.nil_append, hqueue0]
        exact (dedupFirst_nodup [] _).filter _
      · intro v hv
        rw [hqueue0] at hv
        have := (List.mem_filter.mp hv).2
        simpa using this
      · intro v hv
        simp only [List.nil_append, hqueue0] at hv
        exact List.mem_of_mem_filter hv
      · intro e _ hm
        cases hm
    obtain ⟨hndem, hsubks, htopo⟩ :=
      kahnLoop_spec E ks hksE (stmts.length + E.length + 1) queue0 deg0 [] hinv0
    rw [← hemit] at hndem hsubks htopo
    have hlenks : ks.length ≤ stmts.length := by
      rw [hksdef]
      have h1 := dedupFirst_length_le [] (stmts.map (fun s => s.Name))
      have h2 : (stmts.map (fun s => s.Name)).length = stmts.length := List.length_map _ _
      omega
    have hksnd : ks.Nodup := by
      rw [hksdef]; exact dedupFirst_nodup [] _
    have hfin : emitted.toFinset = ks.toFinset := by
      apply Finset.eq_of_subset_of_card_le
      · intro v hv
        exact List.mem_toFinset.mpr (hsubks v (List.mem_toFinset.mp hv))
      · rw [List.toFinset_card_of_nodup hndem, List.toFinset_card_of_nodup hksnd, heq]
        exact hlenks
    have hmemem : ∀ v, v ∈ ks → v ∈ emitted := by
      intro v hv
      have hv' : v ∈ ks.toFinset := List.mem_toFinset.mpr hv
      rw [← hfin] at hv'
      exact List.mem_toFinset.mp hv'
    have haem : a ∈ emitted := hmemem a (edges_mem_ks stmts _ hloop).2
    have hall : ∀ v ∈ a :: t, v ∈ emitted := by
      intro v hv
      rcases List.mem_cons.mp hv with hv | hv
      · exact hv ▸ haem
      · exact hmemem v (chain_targets_mem_ks stmts t a hchain v hv)
    have hle := chain_indexOf_le E emitted hndem htopo t a hchain hall
    have hlt : List.indexOf ((a :: t).getLast (List.cons_ne_nil a t)) emitted <
        List.indexOf a emitted :=
      topo_indexOf_lt E emitted hndem htopo
        ((a :: t).getLast (List.cons_ne_nil a t), a) hloop haem
    omega
  simp [hgate]

/-- Witness for `c4_cycle_always_error`: two tables whose foreign keys
reference each other form a two-node cycle, and resolution fails. -/
theorem c4_cycle_always_error_witness :
    List.Chain (fun u v => (u, v) ∈ edges
      [⟨"CREATE_TABLE", "a", "", ["b"]⟩, ⟨"CREATE_TABLE", "b", "", ["a"]⟩]) "a" ["b"]
    ∧ SortByDependencies [⟨"CREATE_TABLE", "a", "", ["b"]⟩, ⟨"CREATE_TABLE", "b", "", ["a"]⟩] =
        Except.error "检测到循环依赖" := by
  have hchain : List.Chain (fun u v => (u, v) ∈ edges
      [⟨"CREATE_TABLE", "a", "", ["b"]⟩, ⟨"CREATE_TABLE", "b", "", ["a"]⟩]) "a" ["b"] := by
    refine List.Chain.cons ?_ List.Chain.nil
    decide
  refine ⟨hchain, ?_⟩
  exact c4_cycle_always_error _ "a" ["b"] hchain (by decide)

/-- Witness for `c8_amended_fails_fast_on_first_missing`: with every table
missing, the check on `["t1", "t2"]` fails naming `t1` only. -/
theorem c8_amended_fails_fast_witness :
    ValidateTablesExist (fun _ => false) ([] ++ "t1" :: ["t2"]) =
      Except.error ("表 " ++ "t1" ++ " 不存在") := by
  exact (c8_amended_fails_fast_on_first_missing (fun _ => false) [] ["t2"] "t1"
    (fun u hu => absurd hu (List.not_mem_nil u)) rfl).1

end DbMigrator
